import Mathlib

/-!
# Verification of `query` (struct → URL query string)

Shallow embedding of `query.go`: `Stringify`, `StringifyE` and `reflectToString`,
together with the parts of the Go standard library they call
(`url.Values.Add`, `url.Values.Encode`, `url.QueryEscape`, `strconv.FormatInt`,
`strconv.FormatBool`, `slices.Sort` on strings).

A Go string is a byte sequence; structs are lists of fields in declaration
order; `reflect.Value` is a kind together with the payload read by the
accessor of that kind.
-/

namespace Query

/-! ## Strings -/

/-- Go strings are immutable byte sequences. -/
abbrev GoString := List (Fin 256)

/-- Go string literal made of ASCII characters. -/
def lit (s : String) : GoString := s.toList.map (fun c => Fin.ofNat c.toNat)

/-- Byte-wise lexicographic `a <= b` on Go strings (the order used by `slices.Sort`). -/
def strLe : GoString → GoString → Bool
  | [], _ => true
  | _ :: _, [] => false
  | a :: as, b :: bs => decide (a < b) || (decide (a = b) && strLe as bs)

/-! ## reflect -/

/-- The kinds of `reflect.Kind`, in declaration order. -/
inductive Kind where
  | Invalid | Bool | Int | Int8 | Int16 | Int32 | Int64
  | Uint | Uint8 | Uint16 | Uint32 | Uint64 | Uintptr
  | Float32 | Float64 | Complex64 | Complex128
  | Array | Chan | Func | Interface | Map | Pointer | Slice
  | String | Struct | UnsafePointer
  deriving DecidableEq, Repr

/-- A `reflect.Value` as far as `reflectToString` reads it: `Kind()`, and the
results of the accessors `String()`, `Int()`, `Bool()`, each of which is only
read under the matching kind. -/
structure Value where
  kind : Kind
  str : GoString
  int : Int
  bool : Bool
  deriving DecidableEq, Repr

/-- Value of a field of kind `string`. -/
def Value.ofString (s : GoString) : Value := ⟨Kind.String, s, 0, false⟩
/-- Value of a field of kind `int`. -/
def Value.ofInt (n : Int) : Value := ⟨Kind.Int, [], n, false⟩
/-- Value of a field of kind `bool`. -/
def Value.ofBool (b : Bool) : Value := ⟨Kind.Bool, [], 0, b⟩
/-- Value of a field of any other kind (payload never read). -/
def Value.ofKind (k : Kind) : Value := ⟨k, [], 0, false⟩

/-- A struct field: its name, the result of `Tag.Lookup("query")` and its value. -/
structure Field where
  name : GoString
  tag : Option GoString
  value : Value
  deriving DecidableEq, Repr

/-- A struct value: its fields in declaration order. -/
abbrev Record := List Field

/-! ## Options and errors -/

/-- Values of the empty interface `option`: `SkipEmpty{}` or anything else. -/
inductive GoOption where
  | SkipEmpty
  | Other (id : Nat)
  deriving DecidableEq, Repr

/-- The two error types of the package. -/
inductive QueryError where
  | ErrUnsupportedKind (kind : Kind)
  | ErrMissingTag (tag : GoString)
  deriving DecidableEq, Repr

/-! ## strconv -/

/-- ASCII digit of `d < 10`. -/
def digitByte (d : Nat) : Fin 256 := Fin.ofNat (48 + d % 10)

/-- Decimal digits of `u`, most significant first, prepended to `acc`. -/
def formatBits : Nat → Nat → GoString → GoString
  | 0, _, acc => acc
  | fuel + 1, u, acc =>
    if u / 10 = 0 then digitByte u :: acc
    else formatBits fuel (u / 10) (digitByte u :: acc)

/-- Decimal representation of an unsigned magnitude. -/
def FormatUint (u : Nat) : GoString := formatBits (u + 1) u []

/-- `strconv.FormatInt(v, 10)`. -/
def FormatInt (v : Int) : GoString :=
  if v < 0 then (45 : Fin 256) :: FormatUint (-v).toNat else FormatUint v.toNat

/-- `strconv.FormatBool`. -/
def FormatBool (b : Bool) : GoString := if b then lit "true" else lit "false"

/-! ## reflectToString -/

/-- The loop over the options: `skipEmpty` becomes true when some option is a `SkipEmpty`. -/
def skipEmptyOf : List GoOption → Bool → Bool
  | [], skipEmpty => skipEmpty
  | GoOption.SkipEmpty :: os, _ => skipEmptyOf os true
  | GoOption.Other _ :: os, skipEmpty => skipEmptyOf os skipEmpty

/-- `reflectToString(r, o...)`: the pair `(string, error)` it returns. -/
def reflectToString (r : Value) (o : List GoOption) : GoString × Option QueryError :=
  let k := r.kind
  let skipEmpty := skipEmptyOf o false
  match k with
  | Kind.String =>
    let v := r.str
    if v = [] ∧ skipEmpty = true then ([], some (QueryError.ErrUnsupportedKind k))
    else (v, none)
  | Kind.Int =>
    let v := r.int
    if v = 0 ∧ skipEmpty = true then ([], some (QueryError.ErrUnsupportedKind k))
    else (FormatInt v, none)
  | Kind.Bool => (FormatBool r.bool, none)
  | _ => ([], some (QueryError.ErrUnsupportedKind k))

/-! ## net/url -/

/-- `url.Values`: a map from key to the slice of its values, kept as an
association list with one entry per key. -/
abbrev Values := List (GoString × List GoString)

/-- Map lookup `v[key]` (the nil slice when the key is absent). -/
def Values.get : Values → GoString → List GoString
  | [], _ => []
  | (k, vs) :: rest, key => if k = key then vs else Values.get rest key

/-- `v.Add(key, value)`: `v[key] = append(v[key], value)`. -/
def Values.Add : Values → GoString → GoString → Values
  | [], key, value => [(key, [value])]
  | (k, vs) :: rest, key, value =>
    if k = key then (k, vs ++ [value]) :: rest
    else (k, vs) :: Values.Add rest key value

/-- `shouldEscape(c, encodeQueryComponent)`. -/
def shouldEscape (c : Fin 256) : Bool :=
  if (97 ≤ c.val ∧ c.val ≤ 122) ∨ (65 ≤ c.val ∧ c.val ≤ 90) ∨ (48 ≤ c.val ∧ c.val ≤ 57) then false
  else if c.val = 45 ∨ c.val = 95 ∨ c.val = 46 ∨ c.val = 126 then false
  else true

/-- Digit of `upperhex = "0123456789ABCDEF"` at index `n % 16`. -/
def upperhex (n : Nat) : Fin 256 :=
  if n % 16 < 10 then Fin.ofNat (48 + n % 16) else Fin.ofNat (55 + n % 16)

/-- Escaping of one byte in query-component mode. -/
def escapeByte (c : Fin 256) : GoString :=
  if c.val = 32 then [(43 : Fin 256)]
  else if shouldEscape c then [(37 : Fin 256), upperhex (c.val / 16), upperhex (c.val % 16)]
  else [c]

/-- `url.QueryEscape`. -/
def QueryEscape (s : GoString) : GoString := s.flatMap escapeByte

/-- Inner loop of `Encode` over the values of one key, appending to `buf`. -/
def encodeValues (keyEscaped : GoString) : List GoString → GoString → GoString
  | [], buf => buf
  | v :: vs, buf =>
    let buf1 := if buf.length > 0 then buf ++ [(38 : Fin 256)] else buf
    encodeValues keyEscaped vs (buf1 ++ keyEscaped ++ [(61 : Fin 256)] ++ QueryEscape v)

/-- Outer loop of `Encode` over the sorted keys. -/
def encodeKeys (m : Values) : List GoString → GoString → GoString
  | [], buf => buf
  | k :: ks, buf => encodeKeys m ks (encodeValues (QueryEscape k) (m.get k) buf)

/-- `slices.Sort(keys)`: the keys in ascending byte-wise order. -/
def sortKeys (keys : List GoString) : List GoString :=
  keys.insertionSort (fun a b => strLe a b = true)

/-- `v.Encode()`. -/
def Values.Encode (m : Values) : GoString :=
  if m.length = 0 then []
  else encodeKeys m (sortKeys (m.map Prod.fst)) []

/-! ## Stringify and StringifyE -/

/-- The field loop of `Stringify`, from the accumulated `qv`. -/
def stringifyLoop (o : List GoOption) : List Field → Values → Values
  | [], qv => qv
  | field :: rest, qv =>
    match field.tag with
    | some tag =>
      match reflectToString field.value o with
      | (_, some _) => stringifyLoop o rest qv
      | (s, none) => stringifyLoop o rest (qv.Add tag s)
    | none => stringifyLoop o rest qv

/-- `Stringify(v, o...)`. -/
def Stringify (v : Record) (o : List GoOption) : GoString :=
  (stringifyLoop o v []).Encode

/-- The field loop of `StringifyE`, from the accumulated `qv`. -/
def stringifyELoop (o : List GoOption) : List Field → Values → GoString × Option QueryError
  | [], qv => (qv.Encode, none)
  | field :: rest, qv =>
    match field.tag with
    | some tag =>
      match reflectToString field.value o with
      | (_, some err) => ([], some err)
      | (s, none) => stringifyELoop o rest (qv.Add tag s)
    | none => ([], some (QueryError.ErrMissingTag field.name))

/-- `StringifyE(v, o...)`: the pair `(string, error)` it returns. -/
def StringifyE (v : Record) (o : List GoOption) : GoString × Option QueryError :=
  stringifyELoop o v []

/-! ## Reference encoding (from the specification) -/

/-- The pair contributed by one field: its annotation and converted value, when
the field has an annotation and its value converts. -/
def contributes (o : List GoOption) (f : Field) : Option (GoString × GoString) :=
  match f.tag with
  | some tag =>
    match reflectToString f.value o with
    | (_, some _) => none
    | (s, none) => some (tag, s)
  | none => none

/-- The contributed pairs of a record, in declared order. -/
def contributed (v : Record) (o : List GoOption) : List (GoString × GoString) :=
  v.filterMap (contributes o)

/-- One pair rendered as `escape(key) + "=" + escape(value)`. -/
def renderPair (p : GoString × GoString) : GoString :=
  QueryEscape p.1 ++ [(61 : Fin 256)] ++ QueryEscape p.2

/-- Strings joined with `&`. -/
def joinAmp : List GoString → GoString
  | [] => []
  | [x] => x
  | x :: y :: rest => x ++ [(38 : Fin 256)] ++ joinAmp (y :: rest)

/-- Pairs sorted stably by key in ascending byte-wise order. -/
def sortPairs (pairs : List (GoString × GoString)) : List (GoString × GoString) :=
  pairs.insertionSort (fun a b => strLe a.1 b.1 = true)

/-- The reference encoding of a list of pairs: stable sort by key, render, join with `&`. -/
def referenceEncode (pairs : List (GoString × GoString)) : GoString :=
  joinAmp ((sortPairs pairs).map renderPair)

/-- All pairs added to a `url.Values`, first to last. -/
def addAll (m : Values) (ps : List (GoString × GoString)) : Values :=
  ps.foldl (fun acc p => acc.Add p.1 p.2) m

/-- A kind with a string conversion: `string`, `int` or `bool`. -/
def supportedKind (k : Kind) : Bool :=
  match k with
  | Kind.String => true
  | Kind.Int => true
  | Kind.Bool => true
  | _ => false

/-- Items appended to a buffer, each preceded by `&` when the buffer is non-empty. -/
def joinBuf (buf : GoString) (items : List GoString) : GoString :=
  items.foldl (fun b it => (if b.length > 0 then b ++ [(38 : Fin 256)] else b) ++ it) buf

/-- The pairs of a `url.Values` in the order `Encode` visits them for the key list `ks`. -/
def grouped (m : Values) (ks : List GoString) : List (GoString × GoString) :=
  ks.flatMap (fun k => (m.get k).map (fun v => (k, v)))

/-- The error a single field raises in strict mode, if any: a missing annotation
is checked before the conversion of the value. -/
def fieldError (o : List GoOption) (f : Field) : Option QueryError :=
  match f.tag with
  | some _ => (reflectToString f.value o).2
  | none => some (QueryError.ErrMissingTag f.name)

/-- An ASCII decimal digit. -/
def isDigit (b : Fin 256) : Bool := decide (48 ≤ b.val ∧ b.val ≤ 57)

/-- The number written by a string of decimal digits, most significant first. -/
def readDigits (s : GoString) : Nat := s.foldl (fun acc b => 10 * acc + (b.val - 48)) 0

/-- A decimal integer read back: an optional leading `-`, then digits. -/
def readInt : GoString → Int
  | [] => 0
  | b :: rest => if b.val = 45 then -(readDigits rest : Int) else (readDigits (b :: rest) : Int)

/-- Number of key/value pairs held by a `url.Values`. -/
def pairCount (m : Values) : Nat := (m.map (fun e => e.2.length)).sum

/-- A text field with value "" or an integer field with value 0. -/
def isEmptyField (f : Field) : Bool :=
  decide ((f.value.kind = Kind.String ∧ f.value.str = []) ∨
    (f.value.kind = Kind.Int ∧ f.value.int = 0))

/-- The contributed pairs of a record in declared order, each with the field it comes from. -/
def contributedBy (v : Record) (o : List GoOption) : List (Field × (GoString × GoString)) :=
  v.filterMap (fun f => (contributes o f).map (fun p => (f, p)))

/-- The sequence of pairs emitted for a record (stable sort by key), each with its field. -/
def emitted (v : Record) (o : List GoOption) : List (Field × (GoString × GoString)) :=
  (contributedBy v o).insertionSort (fun a b => strLe a.2.1 b.2.1 = true)

/-! ## The byte-wise order -/

theorem strLe_refl (a : GoString) : strLe a a = true := by
  induction a with
  | nil => rfl
  | cons x xs ih => simp [strLe, ih]

theorem strLe_total (a b : GoString) : strLe a b = true ∨ strLe b a = true := by
  induction a generalizing b with
  | nil => left; rfl
  | cons x xs ih =>
    cases b with
    | nil => right; rfl
    | cons y ys =>
      simp only [strLe, Bool.or_eq_true, Bool.and_eq_true, decide_eq_true_eq]
      rcases lt_trichotomy x y with h | h | h
      · left; left; exact h
      · subst h
        rcases ih ys with h1 | h1
        · left; right; exact ⟨rfl, h1⟩
        · right; right; exact ⟨rfl, h1⟩
      · right; left; exact h

theorem strLe_trans {a b c : GoString} (hab : strLe a b = true) (hbc : strLe b c = true) :
    strLe a c = true := by
  induction a generalizing b c with
  | nil => rfl
  | cons x xs ih =>
    cases b with
    | nil => simp [strLe] at hab
    | cons y ys =>
      cases c with
      | nil => simp [strLe] at hbc
      | cons z zs =>
        simp only [strLe, Bool.or_eq_true, Bool.and_eq_true, decide_eq_true_eq] at hab hbc ⊢
        rcases hab with h1 | ⟨h1, h1x⟩
        · rcases hbc with h2 | ⟨h2, _⟩
          · left; exact lt_trans h1 h2
          · left; rw [← h2]; exact h1
        · rcases hbc with h2 | ⟨h2, h2x⟩
          · left; rw [h1]; exact h2
          · right; exact ⟨h1.trans h2, ih h1x h2x⟩

theorem strLe_antisymm {a b : GoString} (hab : strLe a b = true) (hba : strLe b a = true) :
    a = b := by
  induction a generalizing b with
  | nil =>
    cases b with
    | nil => rfl
    | cons y ys => simp [strLe] at hba
  | cons x xs ih =>
    cases b with
    | nil => simp [strLe] at hab
    | cons y ys =>
      simp only [strLe, Bool.or_eq_true, Bool.and_eq_true, decide_eq_true_eq] at hab hba
      rcases hab with h1 | ⟨h1, h1x⟩
      · rcases hba with h2 | ⟨h2, _⟩
        · exact absurd h1 (lt_asymm h2)
        · exact absurd h1 (by rw [h2]; exact lt_irrefl _)
      · rcases hba with h2 | ⟨_, h2x⟩
        · exact absurd h2 (by rw [h1]; exact lt_irrefl _)
        · rw [h1, ih h1x h2x]

/-! ## `url.Values` as a multimap -/

theorem get_Add (m : Values) (k v k' : GoString) :
    (m.Add k v).get k' = if k = k' then m.get k' ++ [v] else m.get k' := by
  induction m with
  | nil =>
    by_cases h : k = k' <;> simp [Values.Add, Values.get, h]
  | cons e rest ih =>
    obtain ⟨ek, evs⟩ := e
    by_cases h1 : ek = k
    · subst h1
      by_cases h2 : ek = k' <;> simp [Values.Add, Values.get, h2]
    · by_cases h2 : ek = k'
      · subst h2
        have h3 : ¬ k = ek := fun h => h1 h.symm
        simp [Values.Add, Values.get, h1, h3]
      · simp [Values.Add, Values.get, h1, h2, ih]

theorem keys_Add (m : Values) (k v : GoString) :
    (m.Add k v).map Prod.fst =
      if k ∈ m.map Prod.fst then m.map Prod.fst else m.map Prod.fst ++ [k] := by
  induction m with
  | nil => simp [Values.Add]
  | cons e rest ih =>
    obtain ⟨ek, evs⟩ := e
    by_cases h1 : ek = k
    · subst h1; simp [Values.Add]
    · have h3 : ¬ k = ek := fun h => h1 h.symm
      simp only [Values.Add, h1, if_false, List.map_cons, ih, List.mem_cons, h3, false_or]
      split <;> simp

theorem get_addAll (ps : List (GoString × GoString)) (m : Values) (k : GoString) :
    (addAll m ps).get k = m.get k ++ (ps.filter (fun p => decide (p.1 = k))).map Prod.snd := by
  induction ps generalizing m with
  | nil => simp [addAll]
  | cons p ps ih =>
    have h := ih (m.Add p.1 p.2)
    simp only [addAll, List.foldl_cons] at h ⊢
    rw [h, get_Add]
    by_cases hk : p.1 = k <;> simp [hk, List.filter_cons]

theorem mem_keys_addAll (ps : List (GoString × GoString)) (m : Values) (k : GoString) :
    k ∈ (addAll m ps).map Prod.fst ↔ k ∈ m.map Prod.fst ∨ k ∈ ps.map Prod.fst := by
  induction ps generalizing m with
  | nil => simp [addAll]
  | cons p ps ih =>
    have h := ih (m.Add p.1 p.2)
    simp only [addAll, List.foldl_cons] at h ⊢
    rw [h, keys_Add]
    by_cases hk : p.1 ∈ m.map Prod.fst
    · rw [if_pos hk]
      simp only [List.map_cons, List.mem_cons]
      constructor
      · rintro (h1 | h1)
        · exact Or.inl h1
        · exact Or.inr (Or.inr h1)
      · rintro (h1 | h1 | h1)
        · exact Or.inl h1
        · exact Or.inl (h1 ▸ hk)
        · exact Or.inr h1
    · rw [if_neg hk]
      simp only [List.map_cons, List.mem_cons, List.mem_append, List.mem_singleton]
      tauto

theorem nodup_keys_addAll (ps : List (GoString × GoString)) (m : Values)
    (hm : (m.map Prod.fst).Nodup) : ((addAll m ps).map Prod.fst).Nodup := by
  induction ps generalizing m with
  | nil => simpa [addAll] using hm
  | cons p ps ih =>
    have h := ih (m.Add p.1 p.2)
    simp only [addAll, List.foldl_cons] at h ⊢
    apply h
    rw [keys_Add]
    by_cases hk : p.1 ∈ m.map Prod.fst
    · rw [if_pos hk]; exact hm
    · rw [if_neg hk]
      exact List.Nodup.append hm (List.nodup_singleton _) (by simpa using hk)

theorem stringifyLoop_eq_addAll (o : List GoOption) (v : Record) (qv : Values) :
    stringifyLoop o v qv = addAll qv (contributed v o) := by
  induction v generalizing qv with
  | nil => rfl
  | cons f fs ih =>
    cases ht : f.tag with
    | none =>
      simp only [stringifyLoop, ht, contributed, List.filterMap_cons, contributes]
      exact ih qv
    | some tag =>
      rcases hr : reflectToString f.value o with ⟨s, _ | err⟩
      · simp only [stringifyLoop, ht, hr, contributed, List.filterMap_cons, contributes]
        exact ih _
      · simp only [stringifyLoop, ht, hr, contributed, List.filterMap_cons, contributes]
        exact ih qv

/-! ## `Encode` as a join of rendered pairs -/

theorem encodeValues_eq (k : GoString) (vs : List GoString) (buf : GoString) :
    encodeValues (QueryEscape k) vs buf = joinBuf buf (vs.map (fun v => renderPair (k, v))) := by
  induction vs generalizing buf with
  | nil => rfl
  | cons v vs ih =>
    simp only [encodeValues, ih, joinBuf, List.map_cons, List.foldl_cons, renderPair,
      List.append_assoc]

theorem joinBuf_append (buf : GoString) (a b : List GoString) :
    joinBuf buf (a ++ b) = joinBuf (joinBuf buf a) b := by
  simp [joinBuf, List.foldl_append]

theorem encodeKeys_eq (m : Values) (ks : List GoString) (buf : GoString) :
    encodeKeys m ks buf = joinBuf buf ((grouped m ks).map renderPair) := by
  induction ks generalizing buf with
  | nil => rfl
  | cons k ks ih =>
    simp only [encodeKeys, ih, encodeValues_eq, grouped, List.flatMap_cons, List.map_append,
      joinBuf_append, List.map_map]
    rfl

theorem joinBuf_of_ne_nil (buf : GoString) (items : List GoString) (h : buf ≠ []) :
    joinBuf buf items = buf ++ items.flatMap (fun it => (38 : Fin 256) :: it) := by
  induction items generalizing buf with
  | nil => simp [joinBuf]
  | cons x xs ih =>
    have hpos : buf.length > 0 := List.length_pos.mpr h
    have hne : buf ++ [(38 : Fin 256)] ++ x ≠ [] := by simp
    have step : joinBuf buf (x :: xs) = joinBuf (buf ++ [(38 : Fin 256)] ++ x) xs := by
      simp [joinBuf, hpos]
    rw [step, ih _ hne]
    simp

theorem joinAmp_cons (x : GoString) (xs : List GoString) :
    joinAmp (x :: xs) = x ++ xs.flatMap (fun it => (38 : Fin 256) :: it) := by
  induction xs generalizing x with
  | nil => simp [joinAmp]
  | cons y ys ih => simp [joinAmp, ih]

theorem renderPair_ne_nil (p : GoString × GoString) : renderPair p ≠ [] := by
  simp [renderPair]

theorem joinBuf_nil_render (ps : List (GoString × GoString)) :
    joinBuf [] (ps.map renderPair) = joinAmp (ps.map renderPair) := by
  cases ps with
  | nil => rfl
  | cons p ps =>
    have step : joinBuf [] ((p :: ps).map renderPair) = joinBuf (renderPair p) (ps.map renderPair) := by
      simp [joinBuf]
    rw [step, joinBuf_of_ne_nil _ _ (renderPair_ne_nil p), List.map_cons, joinAmp_cons]

theorem Encode_eq (m : Values) :
    m.Encode = joinAmp ((grouped m (sortKeys (m.map Prod.fst))).map renderPair) := by
  unfold Values.Encode
  split
  · rename_i h
    have hm : m = [] := List.length_eq_zero.mp h
    subst hm
    rfl
  · rw [encodeKeys_eq, joinBuf_nil_render]

/-! ## Grouping by sorted key is the stable sort -/

theorem eq_of_sorted_of_filter_eq (l1 l2 : List (GoString × GoString))
    (h1 : l1.Pairwise (fun a b => strLe a.1 b.1 = true))
    (h2 : l2.Pairwise (fun a b => strLe a.1 b.1 = true))
    (hf : ∀ k, l1.filter (fun p => decide (p.1 = k)) = l2.filter (fun p => decide (p.1 = k))) :
    l1 = l2 := by
  induction l1 generalizing l2 with
  | nil =>
    cases l2 with
    | nil => rfl
    | cons b t2 =>
      have h := hf b.1
      simp [List.filter_cons] at h
  | cons a t1 ih =>
    cases l2 with
    | nil =>
      have h := hf a.1
      simp [List.filter_cons] at h
    | cons b t2 =>
      obtain ⟨ha, ht1⟩ := List.pairwise_cons.mp h1
      obtain ⟨hb, ht2⟩ := List.pairwise_cons.mp h2
      have hba : strLe b.1 a.1 = true := by
        have hmem : a ∈ (b :: t2).filter (fun p => decide (p.1 = a.1)) := by
          rw [← hf a.1]; simp [List.filter_cons]
        have hmem2 : a ∈ b :: t2 := (List.mem_filter.mp hmem).1
        rcases List.mem_cons.mp hmem2 with h | h
        · rw [h]; exact strLe_refl _
        · exact hb a h
      have hab : strLe a.1 b.1 = true := by
        have hmem : b ∈ (a :: t1).filter (fun p => decide (p.1 = b.1)) := by
          rw [hf b.1]; simp [List.filter_cons]
        have hmem2 : b ∈ a :: t1 := (List.mem_filter.mp hmem).1
        rcases List.mem_cons.mp hmem2 with h | h
        · rw [h]; exact strLe_refl _
        · exact ha b h
      have hkey : a.1 = b.1 := strLe_antisymm hab hba
      have hhead := hf a.1
      simp only [List.filter_cons, decide_True, if_true, hkey] at hhead
      have hab2 : a = b := (List.cons.inj hhead).1
      subst hab2
      congr 1
      apply ih t2 ht1 ht2
      intro k
      have hk := hf k
      by_cases hak : a.1 = k
      · simp only [List.filter_cons, hak, decide_True, if_true] at hk
        exact (List.cons.inj hk).2
      · simpa [List.filter_cons, hak] using hk

theorem pairwise_sortPairs (ps : List (GoString × GoString)) :
    (sortPairs ps).Pairwise (fun a b => strLe a.1 b.1 = true) := by
  haveI : IsTotal (GoString × GoString) (fun a b => strLe a.1 b.1 = true) :=
    ⟨fun a b => strLe_total a.1 b.1⟩
  haveI : IsTrans (GoString × GoString) (fun a b => strLe a.1 b.1 = true) :=
    ⟨fun _ _ _ h1 h2 => strLe_trans h1 h2⟩
  exact List.sorted_insertionSort (fun a b => strLe a.1 b.1 = true) ps

theorem filter_sortPairs (ps : List (GoString × GoString)) (k : GoString) :
    (sortPairs ps).filter (fun p => decide (p.1 = k)) = ps.filter (fun p => decide (p.1 = k)) := by
  haveI : IsTotal (GoString × GoString) (fun a b => strLe a.1 b.1 = true) :=
    ⟨fun a b => strLe_total a.1 b.1⟩
  haveI : IsTrans (GoString × GoString) (fun a b => strLe a.1 b.1 = true) :=
    ⟨fun _ _ _ h1 h2 => strLe_trans h1 h2⟩
  have hpw : (ps.filter (fun p => decide (p.1 = k))).Pairwise (fun a b => strLe a.1 b.1 = true) := by
    rw [List.pairwise_iff_forall_sublist]
    intro a b hab
    have ha : a ∈ ps.filter (fun p => decide (p.1 = k)) := hab.subset (by simp)
    have hb : b ∈ ps.filter (fun p => decide (p.1 = k)) := hab.subset (by simp)
    have ha1 : a.1 = k := by simpa using (List.mem_filter.mp ha).2
    have hb1 : b.1 = k := by simpa using (List.mem_filter.mp hb).2
    rw [ha1, hb1]; exact strLe_refl k
  have hsub : List.Sublist (ps.filter (fun p => decide (p.1 = k))) (sortPairs ps) :=
    List.sublist_insertionSort hpw (List.filter_sublist ps)
  have hsub2 : List.Sublist (ps.filter (fun p => decide (p.1 = k)))
      ((sortPairs ps).filter (fun p => decide (p.1 = k))) := by
    have := hsub.filter (fun p => decide (p.1 = k))
    simpa [List.filter_filter] using this
  have hperm : ((sortPairs ps).filter (fun p => decide (p.1 = k))).Perm
      (ps.filter (fun p => decide (p.1 = k))) :=
    (List.perm_insertionSort _ ps).filter _
  exact (hsub2.eq_of_length hperm.length_eq.symm).symm

theorem pairwise_grouped (m : Values) (ks : List GoString)
    (hks : ks.Pairwise (fun a b => strLe a b = true)) :
    (grouped m ks).Pairwise (fun a b => strLe a.1 b.1 = true) := by
  unfold grouped
  rw [List.pairwise_flatMap]
  constructor
  · intro k _
    rw [List.pairwise_map]
    exact List.pairwise_of_forall (fun _ _ => strLe_refl k)
  · refine hks.imp ?_
    intro a b hab x hx y hy
    obtain ⟨_, _, rfl⟩ := List.mem_map.mp hx
    obtain ⟨_, _, rfl⟩ := List.mem_map.mp hy
    exact hab

theorem filter_grouped (m : Values) (ks : List GoString) (hks : ks.Nodup) (k : GoString) :
    (grouped m ks).filter (fun p => decide (p.1 = k)) =
      if k ∈ ks then (m.get k).map (fun v => (k, v)) else [] := by
  induction ks with
  | nil => simp [grouped]
  | cons a ks ih =>
    obtain ⟨ha, hks2⟩ := List.nodup_cons.mp hks
    have ih2 := ih hks2
    simp only [grouped, List.flatMap_cons, List.filter_append] at ih2 ⊢
    rw [ih2]
    by_cases hak : a = k
    · subst hak
      simp [ha, List.filter_map, Function.comp_def]
    · have hka : ¬ k = a := fun h => hak h.symm
      simp [hak, hka, List.filter_map, Function.comp_def]

theorem grouped_eq_sortPairs (ps : List (GoString × GoString)) :
    grouped (addAll [] ps) (sortKeys ((addAll [] ps).map Prod.fst)) = sortPairs ps := by
  haveI : IsTotal GoString (fun a b => strLe a b = true) := ⟨strLe_total⟩
  haveI : IsTrans GoString (fun a b => strLe a b = true) := ⟨fun _ _ _ h1 h2 => strLe_trans h1 h2⟩
  have hsorted : (sortKeys ((addAll [] ps).map Prod.fst)).Pairwise (fun a b => strLe a b = true) :=
    List.sorted_insertionSort (fun a b => strLe a b = true) _
  have hperm : (sortKeys ((addAll [] ps).map Prod.fst)).Perm ((addAll [] ps).map Prod.fst) :=
    List.perm_insertionSort _ _
  have hnodup : (sortKeys ((addAll [] ps).map Prod.fst)).Nodup :=
    hperm.nodup_iff.mpr (nodup_keys_addAll ps [] (by simp))
  apply eq_of_sorted_of_filter_eq _ _ (pairwise_grouped _ _ hsorted) (pairwise_sortPairs ps)
  intro k
  rw [filter_grouped _ _ hnodup, filter_sortPairs, get_addAll]
  have hmem : k ∈ sortKeys ((addAll [] ps).map Prod.fst) ↔ k ∈ ps.map Prod.fst := by
    rw [hperm.mem_iff, mem_keys_addAll]; simp
  have hmap : ∀ l : List (GoString × GoString), (∀ p ∈ l, p.1 = k) →
      (l.map Prod.snd).map (fun v => (k, v)) = l := by
    intro l hl
    induction l with
    | nil => rfl
    | cons p l ih =>
      have hp : p.1 = k := hl p (List.mem_cons_self _ _)
      have ih2 := ih (fun q hq => hl q (List.mem_cons_of_mem _ hq))
      simp only [List.map_cons, ih2]
      rw [← hp]
  by_cases hk : k ∈ ps.map Prod.fst
  · rw [if_pos (hmem.mpr hk)]
    simp only [Values.get, List.nil_append]
    apply hmap
    intro p hp
    simpa using (List.mem_filter.mp hp).2
  · rw [if_neg (fun h => hk (hmem.mp h))]
    symm
    rw [List.filter_eq_nil_iff]
    intro p hp
    have : p.1 ≠ k := fun h => hk (h ▸ List.mem_map_of_mem Prod.fst hp)
    simpa using this

/-- `Stringify` computes the reference encoding of the contributed pairs. -/
theorem Stringify_eq_reference (v : Record) (o : List GoOption) :
    Stringify v o = referenceEncode (contributed v o) := by
  unfold Stringify referenceEncode
  rw [stringifyLoop_eq_addAll, Encode_eq, grouped_eq_sortPairs]

/-! ## The strict loop -/

theorem stringifyELoop_append (o : List GoOption) (pre rest : List Field) (qv : Values)
    (hpre : ∀ g ∈ pre, fieldError o g = none) :
    stringifyELoop o (pre ++ rest) qv = stringifyELoop o rest (stringifyLoop o pre qv) := by
  induction pre generalizing qv with
  | nil => rfl
  | cons g gs ih =>
    have hg := hpre g (List.mem_cons_self _ _)
    have ih2 := fun qv2 => ih qv2 (fun x hx => hpre x (List.mem_cons_of_mem _ hx))
    cases ht : g.tag with
    | none => simp [fieldError, ht] at hg
    | some tag =>
      rcases hr : reflectToString g.value o with ⟨s, _ | err⟩
      · simp only [List.cons_append, stringifyELoop, stringifyLoop, ht, hr]
        exact ih2 _
      · simp [fieldError, ht, hr] at hg

theorem fieldError_of_ok (o : List GoOption) (g : Field)
    (h : g.tag.isSome = true ∧ (reflectToString g.value o).2 = none) : fieldError o g = none := by
  obtain ⟨h1, h2⟩ := h
  cases ht : g.tag with
  | none => simp [ht] at h1
  | some tag => simpa [fieldError, ht] using h2

theorem reflectToString_unsupported (r : Value) (o : List GoOption)
    (h : supportedKind r.kind = false) :
    reflectToString r o = ([], some (QueryError.ErrUnsupportedKind r.kind)) := by
  unfold reflectToString
  cases hk : r.kind <;> simp_all [supportedKind]

theorem skipEmptyOf_eq (o : List GoOption) (b : Bool) :
    skipEmptyOf o b = (b || decide (GoOption.SkipEmpty ∈ o)) := by
  induction o generalizing b with
  | nil => simp [skipEmptyOf]
  | cons x xs ih =>
    cases x with
    | SkipEmpty => simp [skipEmptyOf, ih]
    | Other n => simp [skipEmptyOf, ih]

theorem contributed_append (a b : Record) (o : List GoOption) :
    contributed (a ++ b) o = contributed a o ++ contributed b o := by
  simp [contributed, List.filterMap_append]

theorem contributed_cons (f : Field) (b : Record) (o : List GoOption) :
    contributed (f :: b) o = (contributes o f).toList ++ contributed b o := by
  cases h : contributes o f <;> simp [contributed, List.filterMap_cons, h]

theorem reflectToString_text (r : Value) (o : List GoOption) (h : r.kind = Kind.String) :
    reflectToString r o =
      if r.str = [] ∧ GoOption.SkipEmpty ∈ o then
        ([], some (QueryError.ErrUnsupportedKind Kind.String))
      else (r.str, none) := by
  simp [reflectToString, h, skipEmptyOf_eq]

theorem reflectToString_int (r : Value) (o : List GoOption) (h : r.kind = Kind.Int) :
    reflectToString r o =
      if r.int = 0 ∧ GoOption.SkipEmpty ∈ o then
        ([], some (QueryError.ErrUnsupportedKind Kind.Int))
      else (FormatInt r.int, none) := by
  simp [reflectToString, h, skipEmptyOf_eq]

theorem reflectToString_bool (r : Value) (o : List GoOption) (h : r.kind = Kind.Bool) :
    reflectToString r o = (FormatBool r.bool, none) := by
  simp [reflectToString, h]

theorem Stringify_drop (pre post : List Field) (f : Field) (o : List GoOption)
    (h : contributes o f = none) :
    Stringify (pre ++ f :: post) o = Stringify (pre ++ post) o := by
  rw [Stringify_eq_reference, Stringify_eq_reference, contributed_append, contributed_append,
    contributed_cons, h]
  rfl

theorem Stringify_emit (pre post : List Field) (f : Field) (o : List GoOption)
    (p : GoString × GoString) (h : contributes o f = some p) :
    Stringify (pre ++ f :: post) o =
      referenceEncode (contributed pre o ++ p :: contributed post o) := by
  rw [Stringify_eq_reference, contributed_append, contributed_cons, h]
  rfl

theorem Stringify_single (f : Field) (o : List GoOption) (p : GoString × GoString)
    (h : contributes o f = some p) : Stringify [f] o = renderPair p := by
  rw [Stringify_eq_reference, contributed_cons, h]
  rfl

theorem stringifyELoop_ok (o : List GoOption) (v : Record) (qv : Values)
    (h : (stringifyELoop o v qv).2 = none) :
    stringifyELoop o v qv = ((stringifyLoop o v qv).Encode, none) := by
  induction v generalizing qv with
  | nil => rfl
  | cons f fs ih =>
    cases ht : f.tag with
    | none => simp [stringifyELoop, ht] at h
    | some tag =>
      rcases hr : reflectToString f.value o with ⟨s, _ | err⟩
      · simp only [stringifyELoop, stringifyLoop, ht, hr] at h ⊢
        exact ih _ h
      · simp [stringifyELoop, ht, hr] at h

/-! ## Permutations, options and first errors -/

theorem contributes_some_tag (o : List GoOption) (f : Field) (p : GoString × GoString)
    (h : contributes o f = some p) : f.tag = some p.1 := by
  cases ht : f.tag with
  | none => simp [contributes, ht] at h
  | some tag =>
    rcases hr : reflectToString f.value o with ⟨s, _ | err⟩
    · simp only [contributes, ht, hr, Option.some.injEq] at h
      rw [← h]
    · simp [contributes, ht, hr] at h

theorem keys_contributed_sublist (v : Record) (o : List GoOption) :
    List.Sublist ((contributed v o).map Prod.fst) (v.filterMap (fun f => f.tag)) := by
  induction v with
  | nil => simp [contributed]
  | cons f fs ih =>
    rw [contributed_cons]
    cases hc : contributes o f with
    | none =>
      simp only [Option.toList, List.nil_append]
      cases ht : f.tag with
      | none => simpa [List.filterMap_cons, ht] using ih
      | some tag =>
        simp only [List.filterMap_cons, ht]
        exact List.Sublist.cons _ ih
    | some p =>
      have ht := contributes_some_tag o f p hc
      simp only [Option.toList, List.singleton_append, List.map_cons, List.filterMap_cons, ht]
      exact List.Sublist.cons₂ _ ih

theorem sortPairs_eq_of_perm (ps ps' : List (GoString × GoString)) (hp : ps.Perm ps')
    (hn : (ps.map Prod.fst).Nodup) : sortPairs ps = sortPairs ps' := by
  apply eq_of_sorted_of_filter_eq _ _ (pairwise_sortPairs ps) (pairwise_sortPairs ps')
  intro k
  rw [filter_sortPairs, filter_sortPairs]
  have hperm : (ps.filter (fun p => decide (p.1 = k))).Perm
      (ps'.filter (fun p => decide (p.1 = k))) := hp.filter _
  have hnd : ((ps.filter (fun p => decide (p.1 = k))).map Prod.fst).Nodup :=
    hn.sublist ((List.filter_sublist ps).map Prod.fst)
  have hall : ∀ p ∈ ps.filter (fun p => decide (p.1 = k)), p.1 = k := by
    intro p hp2
    simpa using (List.mem_filter.mp hp2).2
  generalize ps.filter (fun p => decide (p.1 = k)) = l at hperm hnd hall
  cases l with
  | nil => exact hperm.nil_eq
  | cons a t =>
    cases t with
    | nil => exact List.singleton_perm.mp hperm
    | cons b t2 =>
      exfalso
      have ha : a.1 = k := hall a (by simp)
      have hb : b.1 = k := hall b (by simp)
      simp only [List.map_cons, List.nodup_cons, List.mem_cons] at hnd
      exact hnd.1 (Or.inl (ha.trans hb.symm))

theorem reflectToString_congr (r : Value) (o1 o2 : List GoOption)
    (h : GoOption.SkipEmpty ∈ o1 ↔ GoOption.SkipEmpty ∈ o2) :
    reflectToString r o1 = reflectToString r o2 := by
  have hs : skipEmptyOf o1 false = skipEmptyOf o2 false := by
    rw [skipEmptyOf_eq, skipEmptyOf_eq]
    simp [h]
  simp only [reflectToString, hs]

theorem stringifyLoop_congr (v : Record) (o1 o2 : List GoOption) (qv : Values)
    (h : GoOption.SkipEmpty ∈ o1 ↔ GoOption.SkipEmpty ∈ o2) :
    stringifyLoop o1 v qv = stringifyLoop o2 v qv := by
  induction v generalizing qv with
  | nil => rfl
  | cons f fs ih =>
    simp only [stringifyLoop, reflectToString_congr f.value o1 o2 h, ih]

theorem stringifyELoop_congr (v : Record) (o1 o2 : List GoOption) (qv : Values)
    (h : GoOption.SkipEmpty ∈ o1 ↔ GoOption.SkipEmpty ∈ o2) :
    stringifyELoop o1 v qv = stringifyELoop o2 v qv := by
  induction v generalizing qv with
  | nil => rfl
  | cons f fs ih =>
    simp only [stringifyELoop, reflectToString_congr f.value o1 o2 h, ih]

theorem stringifyELoop_head_error (o : List GoOption) (f : Field) (rest : List Field)
    (qv : Values) (e : QueryError) (h : fieldError o f = some e) :
    stringifyELoop o (f :: rest) qv = ([], some e) := by
  cases ht : f.tag with
  | none =>
    simp only [fieldError, ht, Option.some.injEq] at h
    simp [stringifyELoop, ht, h]
  | some tag =>
    rcases hr : reflectToString f.value o with ⟨s, _ | err⟩
    · simp [fieldError, ht, hr] at h
    · simp only [fieldError, ht, hr, Option.some.injEq] at h
      simp [stringifyELoop, ht, hr, h]

theorem stringifyELoop_error_split (o : List GoOption) (v : Record) (qv : Values)
    (e : QueryError) (h : (stringifyELoop o v qv).2 = some e) :
    ∃ (pre : List Field) (f : Field) (post : List Field), v = pre ++ f :: post ∧
      (∀ g ∈ pre, fieldError o g = none) ∧ fieldError o f = some e := by
  induction v generalizing qv with
  | nil => simp [stringifyELoop] at h
  | cons f fs ih =>
    cases hfe : fieldError o f with
    | some e2 =>
      rw [stringifyELoop_head_error o f fs qv e2 hfe] at h
      simp only [Option.some.injEq] at h
      exact ⟨[], f, fs, rfl, by simp, by rw [hfe, h]⟩
    | none =>
      have happ := stringifyELoop_append o [f] fs qv (by simpa using hfe)
      simp only [List.singleton_append] at happ
      rw [happ] at h
      obtain ⟨pre, g, post, hv, hpre, hg⟩ := ih _ h
      refine ⟨f :: pre, g, post, by rw [hv]; rfl, ?_, hg⟩
      intro x hx
      rcases List.mem_cons.mp hx with hx | hx
      · rw [hx]; exact hfe
      · exact hpre x hx

theorem fieldError_none_iff (o : List GoOption) (g : Field) :
    fieldError o g = none ↔ (g.tag.isSome = true ∧ (reflectToString g.value o).2 = none) := by
  cases ht : g.tag with
  | none => simp [fieldError, ht]
  | some tag => simp [fieldError, ht]

theorem reflectToString_supported_ok (r : Value) (o : List GoOption)
    (hk : supportedKind r.kind = true) (ho : GoOption.SkipEmpty ∉ o) :
    (reflectToString r o).2 = none := by
  have hs : skipEmptyOf o false = false := by
    rw [skipEmptyOf_eq]; simp [ho]
  unfold reflectToString
  cases hkind : r.kind <;> simp_all [supportedKind]

/-! ## Decimal formatting -/

theorem digitByte_val (d : Nat) : (digitByte d).val = 48 + d % 10 := by
  simp only [digitByte, Fin.ofNat]
  omega

theorem readDigits_snoc (ds : GoString) (d : Fin 256) :
    readDigits (ds ++ [d]) = 10 * readDigits ds + (d.val - 48) := by
  simp [readDigits, List.foldl_append]

theorem formatBits_spec (fuel : Nat) : ∀ (u : Nat) (acc : GoString), u < fuel →
    ∃ ds : GoString, formatBits fuel u acc = ds ++ acc ∧ ds ≠ [] ∧
      (∀ b ∈ ds, isDigit b = true) ∧ readDigits ds = u ∧
      (u = 0 → ds = [(48 : Fin 256)]) ∧ (u ≠ 0 → ds.head? ≠ some (48 : Fin 256)) := by
  induction fuel with
  | zero => intro u acc hu; omega
  | succ n ih =>
    intro u acc hu
    have hv := digitByte_val u
    by_cases h : u / 10 = 0
    · refine ⟨[digitByte u], by simp [formatBits, h], by simp, ?_, ?_, ?_, ?_⟩
      · intro b hb
        rw [List.mem_singleton.mp hb]
        simp only [isDigit, hv, decide_eq_true_eq]
        omega
      · simp only [readDigits, List.foldl_cons, List.foldl_nil, hv]
        omega
      · intro h0
        subst h0
        rfl
      · intro hne hhead
        simp only [List.head?_cons, Option.some.injEq] at hhead
        have hval : (digitByte u).val = (48 : Fin 256).val := congrArg Fin.val hhead
        have h48 : (48 : Fin 256).val = 48 := rfl
        rw [hv, h48] at hval
        omega
    · obtain ⟨ds, h1, h2, h3, h4, _, h6⟩ := ih (u / 10) (digitByte u :: acc) (by omega)
      refine ⟨ds ++ [digitByte u], by simp [formatBits, h, h1], by simp, ?_, ?_, ?_, ?_⟩
      · intro b hb
        rcases List.mem_append.mp hb with hb | hb
        · exact h3 b hb
        · rw [List.mem_singleton.mp hb]
          simp only [isDigit, hv, decide_eq_true_eq]
          omega
      · rw [readDigits_snoc, h4, hv]
        omega
      · intro h0
        omega
      · intro _
        rw [List.head?_append_of_ne_nil _ h2]
        exact h6 h

theorem FormatUint_spec (u : Nat) :
    ∃ ds : GoString, FormatUint u = ds ∧ ds ≠ [] ∧
      (∀ b ∈ ds, isDigit b = true) ∧ readDigits ds = u ∧
      (u = 0 → ds = [(48 : Fin 256)]) ∧ (u ≠ 0 → ds.head? ≠ some (48 : Fin 256)) := by
  obtain ⟨ds, h1, h2⟩ := formatBits_spec (u + 1) u [] (by omega)
  exact ⟨ds, by simpa [FormatUint] using h1, h2⟩

/-! ## Stable sorting and deletion -/

theorem filter_orderedInsert {α : Type} (r : α → α → Prop) [DecidableRel r]
    (htrans : ∀ a b c, r a b → r b c → r a c) (p : α → Bool) (a : α) :
    ∀ S : List α, S.Pairwise r →
      (S.orderedInsert r a).filter p =
        if p a = true then (S.filter p).orderedInsert r a else S.filter p := by
  intro S
  induction S with
  | nil =>
    intro _
    by_cases hpa : p a = true <;> simp [hpa]
  | cons b t ih =>
    intro hS
    obtain ⟨hb, ht⟩ := List.pairwise_cons.mp hS
    have ih2 := ih ht
    by_cases hab : r a b
    · have hins : (b :: t).orderedInsert r a = a :: b :: t := by
        simp [List.orderedInsert, hab]
      rw [hins]
      by_cases hpa : p a = true
      · rw [if_pos hpa, List.filter_cons, if_pos hpa]
        have hle : ∀ c ∈ (b :: t).filter p, r a c := by
          intro c hc
          have hc2 : c ∈ b :: t := (List.mem_filter.mp hc).1
          rcases List.mem_cons.mp hc2 with h | h
          · rw [h]; exact hab
          · exact htrans a b c hab (hb c h)
        generalize (b :: t).filter p = L at hle
        cases L with
        | nil => rfl
        | cons c L2 =>
          have hac : r a c := hle c (List.mem_cons_self _ _)
          simp [List.orderedInsert, hac]
      · rw [if_neg hpa, List.filter_cons, if_neg hpa]
    · have hins : (b :: t).orderedInsert r a = b :: t.orderedInsert r a := by
        simp [List.orderedInsert, hab]
      rw [hins]
      by_cases hpb : p b = true
      · rw [List.filter_cons, if_pos hpb, ih2]
        by_cases hpa : p a = true
        · rw [if_pos hpa, if_pos hpa, List.filter_cons, if_pos hpb]
          simp [List.orderedInsert, hab]
        · rw [if_neg hpa, if_neg hpa, List.filter_cons, if_pos hpb]
      · have hfb : (b :: t).filter p = t.filter p := by
          rw [List.filter_cons, if_neg hpb]
        have hfb2 : (b :: t.orderedInsert r a).filter p = (t.orderedInsert r a).filter p := by
          rw [List.filter_cons, if_neg hpb]
        rw [hfb, hfb2, ih2]

theorem insertionSort_filter {α : Type} (r : α → α → Prop) [DecidableRel r]
    (htotal : ∀ a b, r a b ∨ r b a) (htrans : ∀ a b c, r a b → r b c → r a c)
    (p : α → Bool) (l : List α) :
    (l.filter p).insertionSort r = (l.insertionSort r).filter p := by
  haveI : IsTotal α r := ⟨htotal⟩
  haveI : IsTrans α r := ⟨htrans⟩
  induction l with
  | nil => rfl
  | cons a t ih =>
    have hsorted : (t.insertionSort r).Pairwise r := List.sorted_insertionSort r t
    rw [List.insertionSort, filter_orderedInsert r htrans p a _ hsorted]
    by_cases hpa : p a = true
    · rw [if_pos hpa, List.filter_cons, if_pos hpa, List.insertionSort, ih]
    · rw [if_neg hpa, List.filter_cons, if_neg hpa, ih]

theorem contributedBy_map_snd (v : Record) (o : List GoOption) :
    (contributedBy v o).map Prod.snd = contributed v o := by
  induction v with
  | nil => rfl
  | cons f fs ih =>
    simp only [contributedBy, contributed, List.filterMap_cons] at ih ⊢
    cases hc : contributes o f with
    | none => simpa using ih
    | some p => simpa using ih

theorem emitted_map_snd (v : Record) (o : List GoOption) :
    (emitted v o).map Prod.snd = sortPairs (contributed v o) := by
  unfold emitted sortPairs
  rw [List.map_insertionSort (fun a b => strLe a.2.1 b.2.1 = true)
    (fun a b => strLe a.1 b.1 = true) Prod.snd (contributedBy v o)
    (fun _ _ _ _ => Iff.rfl), contributedBy_map_snd]

theorem Stringify_eq_emitted (v : Record) (o : List GoOption) :
    Stringify v o = joinAmp ((emitted v o).map (fun x => renderPair x.2)) := by
  rw [Stringify_eq_reference, referenceEncode, ← emitted_map_snd, List.map_map]
  rfl

theorem mem_contributedBy (v : Record) (o : List GoOption)
    (x : Field × (GoString × GoString)) :
    x ∈ contributedBy v o ↔ x.1 ∈ v ∧ contributes o x.1 = some x.2 := by
  obtain ⟨f, p⟩ := x
  simp only [contributedBy, List.mem_filterMap, Option.map_eq_some', Prod.mk.injEq]
  constructor
  · rintro ⟨g, hg, q, hq, hgf, hqp⟩
    subst hgf; subst hqp
    exact ⟨hg, hq⟩
  · rintro ⟨hf, hc⟩
    exact ⟨f, hf, p, hc, rfl, rfl⟩

theorem contributes_SkipEmpty (f : Field) (o0 o1 : List GoOption)
    (h0 : GoOption.SkipEmpty ∉ o0) (h1 : GoOption.SkipEmpty ∈ o1) :
    contributes o1 f = if isEmptyField f = true then none else contributes o0 f := by
  cases ht : f.tag with
  | none => simp [contributes, ht]
  | some tag =>
    by_cases hs : f.value.kind = Kind.String
    · simp only [contributes, ht, reflectToString_text _ _ hs, isEmptyField, hs]
      by_cases hv : f.value.str = [] <;> simp [hv, h0, h1]
    · by_cases hi : f.value.kind = Kind.Int
      · simp only [contributes, ht, reflectToString_int _ _ hi, isEmptyField, hi]
        by_cases hv : f.value.int = 0 <;> simp [hv, h0, h1]
      · have hE : isEmptyField f = false := by simp [isEmptyField, hs, hi]
        have hr : reflectToString f.value o1 = reflectToString f.value o0 := by
          unfold reflectToString
          cases hk : f.value.kind <;> simp_all
        simp [contributes, ht, hr, hE]

theorem contributedBy_SkipEmpty (v : Record) (o0 o1 : List GoOption)
    (h0 : GoOption.SkipEmpty ∉ o0) (h1 : GoOption.SkipEmpty ∈ o1) :
    contributedBy v o1 = (contributedBy v o0).filter (fun x => !isEmptyField x.1) := by
  induction v with
  | nil => rfl
  | cons f fs ih =>
    simp only [contributedBy, List.filterMap_cons] at ih ⊢
    rw [contributes_SkipEmpty f o0 o1 h0 h1]
    by_cases he : isEmptyField f = true
    · rw [if_pos he]
      cases hc : contributes o0 f with
      | none => simpa using ih
      | some p => simpa [List.filter_cons, he] using ih
    · rw [if_neg he]
      cases hc : contributes o0 f with
      | none => simpa using ih
      | some p => simpa [List.filter_cons, he] using ih

/-! ## Counting pairs and empty outputs -/

theorem pairCount_Add (m : Values) (k v : GoString) :
    pairCount (m.Add k v) = pairCount m + 1 := by
  induction m with
  | nil => simp [Values.Add, pairCount]
  | cons e rest ih =>
    obtain ⟨ek, evs⟩ := e
    by_cases h : ek = k
    · simp only [Values.Add, h, if_true, pairCount, List.map_cons, List.sum_cons,
        List.length_append, List.length_singleton]
      omega
    · simp only [pairCount, List.map_cons, List.sum_cons] at ih
      simp only [Values.Add, h, if_false, pairCount, List.map_cons, List.sum_cons, ih]
      omega

theorem pairCount_addAll (ps : List (GoString × GoString)) (m : Values) :
    pairCount (addAll m ps) = pairCount m + ps.length := by
  induction ps generalizing m with
  | nil => simp [addAll]
  | cons p ps ih =>
    have h := ih (m.Add p.1 p.2)
    simp only [addAll, List.foldl_cons] at h ⊢
    rw [h, pairCount_Add, List.length_cons]
    omega

theorem contributes_isSome (o : List GoOption) (f : Field) :
    (contributes o f).isSome = (f.tag.isSome && (reflectToString f.value o).2.isNone) := by
  cases ht : f.tag with
  | none => simp [contributes, ht]
  | some tag =>
    rcases hr : reflectToString f.value o with ⟨s, _ | err⟩ <;> simp [contributes, ht, hr]

theorem length_contributed (v : Record) (o : List GoOption) :
    (contributed v o).length =
      (v.filter (fun f => f.tag.isSome && (reflectToString f.value o).2.isNone)).length := by
  induction v with
  | nil => rfl
  | cons f fs ih =>
    rw [contributed_cons, List.filter_cons, ← contributes_isSome]
    cases hc : contributes o f with
    | none => simpa using ih
    | some p => simpa using ih

theorem mem_referenceEncode (ps : List (GoString × GoString)) (h : ps ≠ []) :
    (61 : Fin 256) ∈ referenceEncode ps := by
  have hlen : (sortPairs ps).length = ps.length := List.length_insertionSort _ ps
  unfold referenceEncode
  cases hs : sortPairs ps with
  | nil =>
    rw [hs] at hlen
    exact absurd (List.length_eq_zero.mp hlen.symm) h
  | cons p rest =>
    rw [List.map_cons, joinAmp_cons]
    simp [renderPair]

theorem contributed_eq_nil_iff (v : Record) (o : List GoOption) :
    contributed v o = [] ↔ ∀ f ∈ v, contributes o f = none := by
  induction v with
  | nil => simp [contributed]
  | cons f fs ih =>
    rw [contributed_cons]
    cases hc : contributes o f with
    | none => simpa [hc] using ih
    | some p => simp [hc]

theorem contributes_eq_none_iff (o : List GoOption) (f : Field) :
    contributes o f = none ↔
      (f.tag = none ∨ supportedKind f.value.kind = false ∨
        (GoOption.SkipEmpty ∈ o ∧ isEmptyField f = true)) := by
  cases ht : f.tag with
  | none => simp [contributes, ht]
  | some tag =>
    by_cases hs : f.value.kind = Kind.String
    · simp only [contributes, ht, reflectToString_text _ _ hs, isEmptyField, hs, supportedKind]
      by_cases hv : f.value.str = [] <;> by_cases ho : GoOption.SkipEmpty ∈ o <;> simp [hv, ho]
    · by_cases hi : f.value.kind = Kind.Int
      · simp only [contributes, ht, reflectToString_int _ _ hi, isEmptyField, hi, supportedKind]
        by_cases hv : f.value.int = 0 <;> by_cases ho : GoOption.SkipEmpty ∈ o <;> simp [hv, ho]
      · have hE : isEmptyField f = false := by simp [isEmptyField, hs, hi]
        by_cases hb : f.value.kind = Kind.Bool
        · simp [contributes, ht, reflectToString_bool _ _ hb, hE, hb, supportedKind]
        · have hk : supportedKind f.value.kind = false := by
            cases hkind : f.value.kind <;> simp_all [supportedKind]
          simp [contributes, ht, reflectToString_unsupported _ _ hk, hk]

/-! ## Claims -/

/-- C1 (fails on the code): a record with a single annotated text field holding the
empty string, serialized with `SkipEmpty`: `Stringify` returns the empty string, but
`StringifyE` returns the empty string with an `ErrUnsupportedKind` error carrying kind
`string`, so strict mode does not succeed on this record of supported kinds. -/
theorem StringifyE_fails_on_empty_text_with_SkipEmpty :
    Stringify [⟨lit "str", some (lit "s"), Value.ofString []⟩] [GoOption.SkipEmpty] = [] ∧
    StringifyE [⟨lit "str", some (lit "s"), Value.ofString []⟩] [GoOption.SkipEmpty] =
      ([], some (QueryError.ErrUnsupportedKind Kind.String)) := by
  decide

/-- C2 (fails on the code): with `SkipEmpty`, an annotated integer field with value 0
makes `StringifyE` return an `ErrUnsupportedKind` error whose kind is `int`, and an
annotated text field with value "" one whose kind is `string`: the error carries a
supported kind and the empty field causes a failure. -/
theorem StringifyE_unsupported_error_carries_supported_kind :
    StringifyE [⟨lit "number", some (lit "n"), Value.ofInt 0⟩] [GoOption.SkipEmpty] =
      ([], some (QueryError.ErrUnsupportedKind Kind.Int)) ∧
    StringifyE [⟨lit "b", some (lit "b"), Value.ofBool true⟩,
        ⟨lit "str", some (lit "s"), Value.ofString []⟩] [GoOption.Other 0, GoOption.SkipEmpty] =
      ([], some (QueryError.ErrUnsupportedKind Kind.String)) := by
  decide

/-- C3: for every record and option set, `Stringify` returns the reference encoding
of the contributed pairs (declared order, stable sort by key in byte-wise order, each
rendered as escape(key) + "=" + escape(value), joined with "&"); for
{westeros: "hello", year: 1230} annotated world/decade this is "decade=1230&world=hello". -/
theorem Stringify_refines_reference_encoding :
    (∀ (v : Record) (o : List GoOption), Stringify v o = referenceEncode (contributed v o)) ∧
    Stringify [⟨lit "westeros", some (lit "world"), Value.ofString (lit "hello")⟩,
      ⟨lit "year", some (lit "decade"), Value.ofInt 1230⟩] [] = lit "decade=1230&world=hello" :=
  ⟨Stringify_eq_reference, by decide⟩

/-- C4: when a field has no annotation and every field declared before it is
annotated and converts, `StringifyE` returns the empty string and an `ErrMissingTag`
carrying the name of that field. -/
theorem StringifyE_missing_tag (pre post : List Field) (f : Field) (o : List GoOption)
    (hf : f.tag = none)
    (hpre : ∀ g ∈ pre, g.tag.isSome = true ∧ (reflectToString g.value o).2 = none) :
    StringifyE (pre ++ f :: post) o = ([], some (QueryError.ErrMissingTag f.name)) := by
  unfold StringifyE
  rw [stringifyELoop_append o pre (f :: post) [] (fun g hg => fieldError_of_ok o g (hpre g hg))]
  simp [stringifyELoop, hf]

/-- C4 at {world: "hello" annotated world, westeros: unannotated text}. -/
theorem StringifyE_missing_tag_witness :
    (∀ g ∈ [(⟨lit "world", some (lit "world"), Value.ofString (lit "hello")⟩ : Field)],
      g.tag.isSome = true ∧ (reflectToString g.value []).2 = none) ∧
    StringifyE ([⟨lit "world", some (lit "world"), Value.ofString (lit "hello")⟩] ++
      ⟨lit "westeros", none, Value.ofString []⟩ :: []) [] =
      ([], some (QueryError.ErrMissingTag (lit "westeros"))) :=
  ⟨by decide, StringifyE_missing_tag _ [] ⟨lit "westeros", none, Value.ofString []⟩ [] rfl
    (by decide)⟩

/-- C5: when an annotated field has a kind other than string, int and bool, and every
field declared before it is annotated and converts, `StringifyE` returns the empty
string and an `ErrUnsupportedKind` carrying exactly the kind of that field. -/
theorem StringifyE_unsupported_kind (pre post : List Field) (f : Field) (o : List GoOption)
    (tag : GoString) (hf : f.tag = some tag) (hk : supportedKind f.value.kind = false)
    (hpre : ∀ g ∈ pre, g.tag.isSome = true ∧ (reflectToString g.value o).2 = none) :
    StringifyE (pre ++ f :: post) o =
      ([], some (QueryError.ErrUnsupportedKind f.value.kind)) := by
  unfold StringifyE
  rw [stringifyELoop_append o pre (f :: post) [] (fun g hg => fieldError_of_ok o g (hpre g hg))]
  simp [stringifyELoop, hf, reflectToString_unsupported f.value o hk]

/-- C5 at {westeros: complex64 annotated world}. -/
theorem StringifyE_unsupported_kind_witness :
    supportedKind (Value.ofKind Kind.Complex64).kind = false ∧
    StringifyE ([] ++ ⟨lit "westeros", some (lit "world"), Value.ofKind Kind.Complex64⟩ :: [])
      [] = ([], some (QueryError.ErrUnsupportedKind Kind.Complex64)) :=
  ⟨by decide, StringifyE_unsupported_kind [] []
    ⟨lit "westeros", some (lit "world"), Value.ofKind Kind.Complex64⟩ [] (lit "world") rfl
    (by decide) (by simp)⟩

/-- C6: for every record and option set, `Stringify` returns the same string as on
the record from which every field without annotation and every field whose kind is
not string, int or bool has been deleted. -/
theorem Stringify_ignores_problematic_fields (v : Record) (o : List GoOption) :
    Stringify v o =
      Stringify (v.filter (fun f => f.tag.isSome && supportedKind f.value.kind)) o := by
  have h : contributed (v.filter (fun f => f.tag.isSome && supportedKind f.value.kind)) o =
      contributed v o := by
    induction v with
    | nil => rfl
    | cons f fs ih =>
      rw [contributed_cons]
      by_cases hp : (f.tag.isSome && supportedKind f.value.kind) = true
      · have hfil : (f :: fs).filter (fun f => f.tag.isSome && supportedKind f.value.kind) =
            f :: fs.filter (fun f => f.tag.isSome && supportedKind f.value.kind) := by
          rw [List.filter_cons, if_pos hp]
        rw [hfil, contributed_cons, ih]
      · have hfil : (f :: fs).filter (fun f => f.tag.isSome && supportedKind f.value.kind) =
            fs.filter (fun f => f.tag.isSome && supportedKind f.value.kind) := by
          rw [List.filter_cons, if_neg hp]
        rw [hfil, ih]
        have hnone : contributes o f = none := by
          cases ht : f.tag with
          | none => simp [contributes, ht]
          | some tag =>
            have hk : supportedKind f.value.kind = false := by simpa [ht] using hp
            simp [contributes, ht, reflectToString_unsupported f.value o hk]
        simp [hnone]
  rw [Stringify_eq_reference, Stringify_eq_reference, h]

/-- C7: for a record containing an annotated text field whose value is the empty
string: without `SkipEmpty`, `Stringify` emits the pair (key, "") for it, and the
single-field record yields escape(key) + "="; with `SkipEmpty`, `Stringify` returns the
same string as on the record with that field removed. -/
theorem Stringify_empty_text (pre post : List Field) (f : Field) (k : GoString)
    (o o' : List GoOption) (hf : f.tag = some k) (hkind : f.value.kind = Kind.String)
    (hval : f.value.str = []) (hno : GoOption.SkipEmpty ∉ o) (hyes : GoOption.SkipEmpty ∈ o') :
    Stringify [f] o = QueryEscape k ++ lit "=" ∧
    Stringify (pre ++ f :: post) o =
      referenceEncode (contributed pre o ++ (k, []) :: contributed post o) ∧
    Stringify (pre ++ f :: post) o' = Stringify (pre ++ post) o' := by
  have h1 : contributes o f = some (k, []) := by
    simp [contributes, hf, reflectToString_text f.value o hkind, hval, hno]
  have h2 : contributes o' f = none := by
    simp [contributes, hf, reflectToString_text f.value o' hkind, hval, hyes]
  refine ⟨?_, Stringify_emit pre post f o _ h1, Stringify_drop pre post f o' h2⟩
  rw [Stringify_single f o _ h1]
  have h4 : lit "=" = [(61 : Fin 256)] := by decide
  simp [renderPair, QueryEscape, h4]

/-- C7 at {westeros: "" annotated world, year: 0 annotated decade}, with no option
and with `SkipEmpty`. -/
theorem Stringify_empty_text_witness :
    GoOption.SkipEmpty ∉ ([] : List GoOption) ∧ GoOption.SkipEmpty ∈ [GoOption.SkipEmpty] ∧
    Stringify [⟨lit "westeros", some (lit "world"), Value.ofString []⟩] [] =
      QueryEscape (lit "world") ++ lit "=" ∧
    Stringify ([] ++ ⟨lit "westeros", some (lit "world"), Value.ofString []⟩ ::
        [⟨lit "year", some (lit "decade"), Value.ofInt 0⟩]) [GoOption.SkipEmpty] =
      Stringify ([] ++ [⟨lit "year", some (lit "decade"), Value.ofInt 0⟩]) [GoOption.SkipEmpty] :=
  ⟨by decide, by decide,
    (Stringify_empty_text [] [⟨lit "year", some (lit "decade"), Value.ofInt 0⟩]
      ⟨lit "westeros", some (lit "world"), Value.ofString []⟩ (lit "world") []
      [GoOption.SkipEmpty] rfl rfl rfl (by decide) (by decide)).1,
    (Stringify_empty_text [] [⟨lit "year", some (lit "decade"), Value.ofInt 0⟩]
      ⟨lit "westeros", some (lit "world"), Value.ofString []⟩ (lit "world") []
      [GoOption.SkipEmpty] rfl rfl rfl (by decide) (by decide)).2.2⟩

/-- C8: for a record containing an annotated integer field with value n: if n = 0 and
`SkipEmpty` is absent, `Stringify` emits the pair (key, "0"), the single-field record
yielding escape(key) + "=0"; if n = 0 and `SkipEmpty` is present, `Stringify` returns the
same string as on the record with that field removed; if n is non-zero, the field
contributes the pair (key, decimal n) under every option set, and `Stringify` emits it. -/
theorem Stringify_integer_field (pre post : List Field) (f : Field) (k : GoString)
    (o o' : List GoOption) (hf : f.tag = some k) (hkind : f.value.kind = Kind.Int)
    (hno : GoOption.SkipEmpty ∉ o) (hyes : GoOption.SkipEmpty ∈ o') :
    (f.value.int = 0 →
      Stringify [f] o = QueryEscape k ++ lit "=0" ∧
      Stringify (pre ++ f :: post) o =
        referenceEncode (contributed pre o ++ (k, lit "0") :: contributed post o) ∧
      Stringify (pre ++ f :: post) o' = Stringify (pre ++ post) o') ∧
    (f.value.int ≠ 0 → ∀ o2 : List GoOption,
      contributes o2 f = some (k, FormatInt f.value.int) ∧
      Stringify (pre ++ f :: post) o2 =
        referenceEncode (contributed pre o2 ++ (k, FormatInt f.value.int) ::
          contributed post o2)) := by
  constructor
  · intro hz
    have h0 : FormatInt 0 = lit "0" := by decide
    have h1 : contributes o f = some (k, lit "0") := by
      simp [contributes, hf, reflectToString_int f.value o hkind, hz, hno, h0]
    have h2 : contributes o' f = none := by
      simp [contributes, hf, reflectToString_int f.value o' hkind, hz, hyes]
    refine ⟨?_, Stringify_emit pre post f o _ h1, Stringify_drop pre post f o' h2⟩
    rw [Stringify_single f o _ h1]
    have h3 : QueryEscape (lit "0") = lit "0" := by decide
    have h4 : lit "=0" = (61 : Fin 256) :: lit "0" := by decide
    simp [renderPair, h3, h4]
  · intro hnz o2
    have h1 : contributes o2 f = some (k, FormatInt f.value.int) := by
      simp [contributes, hf, reflectToString_int f.value o2 hkind, hnz]
    exact ⟨h1, Stringify_emit pre post f o2 _ h1⟩

/-- C8 at {year: 0 annotated decade} and at {year: 1230 annotated decade}. -/
theorem Stringify_integer_field_witness :
    GoOption.SkipEmpty ∉ ([] : List GoOption) ∧ GoOption.SkipEmpty ∈ [GoOption.SkipEmpty] ∧
    Stringify [⟨lit "year", some (lit "decade"), Value.ofInt 0⟩] [] =
      QueryEscape (lit "decade") ++ lit "=0" ∧
    Stringify ([] ++ ⟨lit "year", some (lit "decade"), Value.ofInt 0⟩ :: [])
        [GoOption.SkipEmpty] = Stringify ([] ++ []) [GoOption.SkipEmpty] ∧
    contributes [GoOption.SkipEmpty] ⟨lit "year", some (lit "decade"), Value.ofInt 1230⟩ =
      some (lit "decade", FormatInt 1230) :=
  ⟨by decide, by decide,
    ((Stringify_integer_field [] [] ⟨lit "year", some (lit "decade"), Value.ofInt 0⟩
      (lit "decade") [] [GoOption.SkipEmpty] rfl rfl (by decide) (by decide)).1 rfl).1,
    ((Stringify_integer_field [] [] ⟨lit "year", some (lit "decade"), Value.ofInt 0⟩
      (lit "decade") [] [GoOption.SkipEmpty] rfl rfl (by decide) (by decide)).1 rfl).2.2,
    ((Stringify_integer_field [] [] ⟨lit "year", some (lit "decade"), Value.ofInt 1230⟩
      (lit "decade") [] [GoOption.SkipEmpty] rfl rfl (by decide) (by decide)).2 (by decide)
      [GoOption.SkipEmpty]).1⟩

/-- C9: for every annotated boolean field and every option set, the conversion
succeeds with "true" for true and "false" for false; both field loops add the pair
(key, converted value) when they reach the field; `Stringify` emits it in every record,
`StringifyE` emits it whenever it returns no error, and on the single-field record
both return escape(key) + "=" + value with no error. -/
theorem boolean_field_always_emitted (pre post : List Field) (f : Field) (k : GoString)
    (o : List GoOption) (hf : f.tag = some k) (hkind : f.value.kind = Kind.Bool) :
    reflectToString f.value o = (FormatBool f.value.bool, none) ∧
    FormatBool true = lit "true" ∧ FormatBool false = lit "false" ∧
    (∀ (rest : List Field) (qv : Values),
      stringifyLoop o (f :: rest) qv = stringifyLoop o rest (qv.Add k (FormatBool f.value.bool))) ∧
    (∀ (rest : List Field) (qv : Values),
      stringifyELoop o (f :: rest) qv =
        stringifyELoop o rest (qv.Add k (FormatBool f.value.bool))) ∧
    Stringify (pre ++ f :: post) o =
      referenceEncode (contributed pre o ++ (k, FormatBool f.value.bool) :: contributed post o) ∧
    ((StringifyE (pre ++ f :: post) o).2 = none →
      (StringifyE (pre ++ f :: post) o).1 =
        referenceEncode (contributed pre o ++ (k, FormatBool f.value.bool) ::
          contributed post o)) ∧
    Stringify [f] o = renderPair (k, FormatBool f.value.bool) ∧
    StringifyE [f] o = (renderPair (k, FormatBool f.value.bool), none) := by
  have hr := reflectToString_bool f.value o hkind
  have h1 : contributes o f = some (k, FormatBool f.value.bool) := by
    simp [contributes, hf, hr]
  have hemit := Stringify_emit pre post f o _ h1
  have hsingle := Stringify_single f o _ h1
  refine ⟨hr, rfl, rfl, ?_, ?_, hemit, ?_, hsingle, ?_⟩
  · intro rest qv
    simp [stringifyLoop, hf, hr]
  · intro rest qv
    simp [stringifyELoop, hf, hr]
  · intro hok
    have h2 := stringifyELoop_ok o (pre ++ f :: post) [] hok
    unfold StringifyE
    rw [h2]
    exact hemit
  · have h3 : StringifyE [f] o = (Stringify [f] o, none) := by
      simp [StringifyE, Stringify, stringifyELoop, stringifyLoop, hf, hr]
    rw [h3, hsingle]

/-- C9 at {westeros: true annotated world} with `SkipEmpty`. -/
theorem boolean_field_always_emitted_witness :
    (Value.ofBool true).kind = Kind.Bool ∧
    StringifyE [⟨lit "westeros", some (lit "world"), Value.ofBool true⟩] [GoOption.SkipEmpty] =
      (renderPair (lit "world", FormatBool (Value.ofBool true).bool), none) :=
  ⟨rfl, (boolean_field_always_emitted [] []
    ⟨lit "westeros", some (lit "world"), Value.ofBool true⟩ (lit "world") [GoOption.SkipEmpty]
    rfl rfl).2.2.2.2.2.2.2.2⟩

/-- C10: for every option set, a record with no fields serializes to the empty
string in both modes, and `StringifyE` reports no error. -/
theorem Stringify_empty_record (o : List GoOption) :
    Stringify [] o = [] ∧ StringifyE [] o = ([], none) :=
  ⟨rfl, rfl⟩

/-- C11: for every record and option set, `Stringify` renders a rearrangement of the
contributed pairs whose keys are in ascending byte-wise order of the annotations; and
when the annotations of the record's annotated fields are pairwise distinct, every
permutation of the fields yields the same output (fields annotated "world" then
"decade", in either order, yield "decade=1230&world=hello"). -/
theorem Stringify_keys_ascending (v v' : Record) (o : List GoOption) (hperm : v.Perm v')
    (hnodup : (v.filterMap (fun f => f.tag)).Nodup) :
    (∀ w : Record, ∃ l : List (GoString × GoString),
      l.Perm (contributed w o) ∧ l.Pairwise (fun a b => strLe a.1 b.1 = true) ∧
      Stringify w o = joinAmp (l.map renderPair)) ∧
    Stringify v' o = Stringify v o ∧
    Stringify [⟨lit "year", some (lit "decade"), Value.ofInt 1230⟩,
      ⟨lit "westeros", some (lit "world"), Value.ofString (lit "hello")⟩] [] =
      lit "decade=1230&world=hello" ∧
    Stringify [⟨lit "westeros", some (lit "world"), Value.ofString (lit "hello")⟩,
      ⟨lit "year", some (lit "decade"), Value.ofInt 1230⟩] [] =
      lit "decade=1230&world=hello" := by
  refine ⟨?_, ?_, by decide, by decide⟩
  · intro w
    exact ⟨sortPairs (contributed w o), List.perm_insertionSort _ _, pairwise_sortPairs _,
      Stringify_eq_reference w o⟩
  · rw [Stringify_eq_reference, Stringify_eq_reference]
    unfold referenceEncode
    have hp : (contributed v o).Perm (contributed v' o) := hperm.filterMap _
    have hn : ((contributed v o).map Prod.fst).Nodup :=
      hnodup.sublist (keys_contributed_sublist v o)
    rw [sortPairs_eq_of_perm _ _ hp hn]

/-- C11 at the record {westeros annotated world, year annotated decade} and its swap. -/
theorem Stringify_keys_ascending_witness :
    ([⟨lit "westeros", some (lit "world"), Value.ofString (lit "hello")⟩,
      ⟨lit "year", some (lit "decade"), Value.ofInt 1230⟩] : Record).Perm
      [⟨lit "year", some (lit "decade"), Value.ofInt 1230⟩,
        ⟨lit "westeros", some (lit "world"), Value.ofString (lit "hello")⟩] ∧
    Stringify [⟨lit "year", some (lit "decade"), Value.ofInt 1230⟩,
      ⟨lit "westeros", some (lit "world"), Value.ofString (lit "hello")⟩] [] =
    Stringify [⟨lit "westeros", some (lit "world"), Value.ofString (lit "hello")⟩,
      ⟨lit "year", some (lit "decade"), Value.ofInt 1230⟩] [] :=
  ⟨List.Perm.swap _ _ _,
    (Stringify_keys_ascending
      [⟨lit "westeros", some (lit "world"), Value.ofString (lit "hello")⟩,
        ⟨lit "year", some (lit "decade"), Value.ofInt 1230⟩]
      [⟨lit "year", some (lit "decade"), Value.ofInt 1230⟩,
        ⟨lit "westeros", some (lit "world"), Value.ofString (lit "hello")⟩] []
      (List.Perm.swap _ _ _) (by decide)).2.1⟩

/-- C12: for every record and option set, if `StringifyE` returns a non-nil error
then the returned string is empty and the error is the one of the first field, in
declared order, that lacks an annotation or fails to convert (the annotation being
checked before the value): every field before it is annotated and converts, and the
result is the same whatever fields follow it. -/
theorem StringifyE_first_error (v : Record) (o : List GoOption) (e : QueryError)
    (h : (StringifyE v o).2 = some e) :
    (StringifyE v o).1 = [] ∧
    ∃ (pre : List Field) (f : Field) (post : List Field), v = pre ++ f :: post ∧
      (∀ g ∈ pre, g.tag.isSome = true ∧ (reflectToString g.value o).2 = none) ∧
      fieldError o f = some e ∧
      ∀ post' : List Field, StringifyE (pre ++ f :: post') o = ([], some e) := by
  obtain ⟨pre, f, post, hv, hpre, hf⟩ := stringifyELoop_error_split o v [] e h
  have hall : ∀ post' : List Field, StringifyE (pre ++ f :: post') o = ([], some e) := by
    intro post'
    unfold StringifyE
    rw [stringifyELoop_append o pre (f :: post') [] hpre]
    exact stringifyELoop_head_error o f post' _ e hf
  refine ⟨?_, pre, f, post, hv, ?_, hf, hall⟩
  · rw [hv, hall post]
  · intro g hg
    exact (fieldError_none_iff o g).mp (hpre g hg)

/-- C12 at {world: "hello" annotated world, westeros: complex64 annotated w, last:
unannotated}. -/
theorem StringifyE_first_error_witness :
    (StringifyE [⟨lit "world", some (lit "world"), Value.ofString (lit "hello")⟩,
      ⟨lit "westeros", some (lit "w"), Value.ofKind Kind.Complex64⟩,
      ⟨lit "last", none, Value.ofInt 1⟩] []).2 =
      some (QueryError.ErrUnsupportedKind Kind.Complex64) ∧
    (StringifyE [⟨lit "world", some (lit "world"), Value.ofString (lit "hello")⟩,
      ⟨lit "westeros", some (lit "w"), Value.ofKind Kind.Complex64⟩,
      ⟨lit "last", none, Value.ofInt 1⟩] []).1 = [] :=
  ⟨by decide, (StringifyE_first_error
    [⟨lit "world", some (lit "world"), Value.ofString (lit "hello")⟩,
      ⟨lit "westeros", some (lit "w"), Value.ofKind Kind.Complex64⟩,
      ⟨lit "last", none, Value.ofInt 1⟩] []
    (QueryError.ErrUnsupportedKind Kind.Complex64) (by decide)).1⟩

/-- C13: for every record consisting only of annotated text, integer and boolean
fields, called with no options, `StringifyE` returns a nil error and the same string
as `Stringify`; for {westeros: "hello"} annotated world both return "world=hello", and
for {westeros: "hello", year: 1230} annotated world/decade both return
"decade=1230&world=hello". -/
theorem StringifyE_agrees_without_options (v : Record)
    (h : ∀ f ∈ v, f.tag.isSome = true ∧ supportedKind f.value.kind = true) :
    StringifyE v [] = (Stringify v [], none) ∧
    Stringify [⟨lit "westeros", some (lit "world"), Value.ofString (lit "hello")⟩] [] =
      lit "world=hello" ∧
    StringifyE [⟨lit "westeros", some (lit "world"), Value.ofString (lit "hello")⟩] [] =
      (lit "world=hello", none) ∧
    Stringify [⟨lit "westeros", some (lit "world"), Value.ofString (lit "hello")⟩,
      ⟨lit "year", some (lit "decade"), Value.ofInt 1230⟩] [] =
      lit "decade=1230&world=hello" ∧
    StringifyE [⟨lit "westeros", some (lit "world"), Value.ofString (lit "hello")⟩,
      ⟨lit "year", some (lit "decade"), Value.ofInt 1230⟩] [] =
      (lit "decade=1230&world=hello", none) := by
  refine ⟨?_, by decide, by decide, by decide, by decide⟩
  have hpre : ∀ g ∈ v, fieldError [] g = none := by
    intro g hg
    exact (fieldError_none_iff [] g).mpr
      ⟨(h g hg).1, reflectToString_supported_ok g.value [] (h g hg).2 (by simp)⟩
  have happ := stringifyELoop_append [] v [] [] hpre
  rw [List.append_nil] at happ
  unfold StringifyE Stringify
  rw [happ]
  rfl

/-- C13 at {westeros: true annotated world, year: 0 annotated decade}. -/
theorem StringifyE_agrees_without_options_witness :
    (∀ f ∈ ([⟨lit "westeros", some (lit "world"), Value.ofBool true⟩,
        ⟨lit "year", some (lit "decade"), Value.ofInt 0⟩] : Record),
      f.tag.isSome = true ∧ supportedKind f.value.kind = true) ∧
    StringifyE [⟨lit "westeros", some (lit "world"), Value.ofBool true⟩,
        ⟨lit "year", some (lit "decade"), Value.ofInt 0⟩] [] =
      (Stringify [⟨lit "westeros", some (lit "world"), Value.ofBool true⟩,
        ⟨lit "year", some (lit "decade"), Value.ofInt 0⟩] [], none) :=
  ⟨by decide, (StringifyE_agrees_without_options
    [⟨lit "westeros", some (lit "world"), Value.ofBool true⟩,
      ⟨lit "year", some (lit "decade"), Value.ofInt 0⟩] (by decide)).1⟩

/-- C14: for every record and every two option lists that agree on whether they
contain a `SkipEmpty` value, `Stringify` returns the same string and `StringifyE` the
same result: order, duplicates and other option values have no effect. -/
theorem options_only_SkipEmpty_matters (v : Record) (o1 o2 : List GoOption)
    (h : GoOption.SkipEmpty ∈ o1 ↔ GoOption.SkipEmpty ∈ o2) :
    Stringify v o1 = Stringify v o2 ∧ StringifyE v o1 = StringifyE v o2 := by
  unfold Stringify StringifyE
  rw [stringifyLoop_congr v o1 o2 [] h, stringifyELoop_congr v o1 o2 [] h]
  exact ⟨rfl, rfl⟩

/-- C14 at the option lists [SkipEmpty] and [other, SkipEmpty, other, SkipEmpty]. -/
theorem options_only_SkipEmpty_matters_witness :
    (GoOption.SkipEmpty ∈ [GoOption.SkipEmpty] ↔
      GoOption.SkipEmpty ∈
        [GoOption.Other 3, GoOption.SkipEmpty, GoOption.Other 1, GoOption.SkipEmpty]) ∧
    StringifyE [⟨lit "year", some (lit "decade"), Value.ofInt 0⟩] [GoOption.SkipEmpty] =
      StringifyE [⟨lit "year", some (lit "decade"), Value.ofInt 0⟩]
        [GoOption.Other 3, GoOption.SkipEmpty, GoOption.Other 1, GoOption.SkipEmpty] :=
  ⟨by decide, (options_only_SkipEmpty_matters
    [⟨lit "year", some (lit "decade"), Value.ofInt 0⟩] [GoOption.SkipEmpty]
    [GoOption.Other 3, GoOption.SkipEmpty, GoOption.Other 1, GoOption.SkipEmpty]
    (by decide)).2⟩

/-- C18: for every record and option set, whenever `StringifyE` returns a nil error,
the string it returns equals the string `Stringify` returns on the same input. -/
theorem StringifyE_success_agrees (v : Record) (o : List GoOption)
    (h : (StringifyE v o).2 = none) : (StringifyE v o).1 = Stringify v o := by
  unfold StringifyE at h ⊢
  rw [stringifyELoop_ok o v [] h]
  rfl

/-- C18 at {westeros: "hello" annotated world} with `SkipEmpty`. -/
theorem StringifyE_success_agrees_witness :
    (StringifyE [⟨lit "westeros", some (lit "world"), Value.ofString (lit "hello")⟩]
      [GoOption.SkipEmpty]).2 = none ∧
    (StringifyE [⟨lit "westeros", some (lit "world"), Value.ofString (lit "hello")⟩]
      [GoOption.SkipEmpty]).1 =
      Stringify [⟨lit "westeros", some (lit "world"), Value.ofString (lit "hello")⟩]
        [GoOption.SkipEmpty] :=
  ⟨by decide, StringifyE_success_agrees
    [⟨lit "westeros", some (lit "world"), Value.ofString (lit "hello")⟩]
    [GoOption.SkipEmpty] (by decide)⟩


/-- C15: for every annotated integer field with value n, whenever the conversion
succeeds the emitted value is the base-10 representation of n: a leading "-" exactly
when n is negative, followed by a non-empty string of decimal digits with no leading
zero (the single digit "0" exactly for n = 0) whose value is the magnitude of n, and
reading the whole string back as a decimal integer gives n. -/
theorem integer_field_decimal (f : Field) (k : GoString) (o : List GoOption)
    (hf : f.tag = some k) (hkind : f.value.kind = Kind.Int) :
    (∀ p : GoString × GoString, contributes o f = some p → p = (k, FormatInt f.value.int)) ∧
    readInt (FormatInt f.value.int) = f.value.int ∧
    ∃ ds : GoString,
      FormatInt f.value.int = (if f.value.int < 0 then [(45 : Fin 256)] else []) ++ ds ∧
      ds ≠ [] ∧ (∀ b ∈ ds, isDigit b = true) ∧
      (ds.head? = some (48 : Fin 256) → ds = [(48 : Fin 256)]) ∧
      (f.value.int = 0 ↔ ds = [(48 : Fin 256)]) ∧
      readDigits ds = f.value.int.natAbs := by
  have hzero : readDigits [(48 : Fin 256)] = 0 := by decide
  refine ⟨?_, ?_, ?_⟩
  · intro p hp
    rw [contributes, hf, reflectToString_int f.value o hkind] at hp
    by_cases hc : f.value.int = 0 ∧ GoOption.SkipEmpty ∈ o
    · simp [hc] at hp
    · simp only [if_neg hc, Option.some.injEq] at hp
      exact hp.symm
  · by_cases hneg : f.value.int < 0
    · obtain ⟨ds, h1, _, _, h4, _, _⟩ := FormatUint_spec (-f.value.int).toNat
      simp only [FormatInt, if_pos hneg, h1, readInt]
      have h45 : ((45 : Fin 256).val = 45) := rfl
      rw [if_pos h45, h4]
      omega
    · obtain ⟨ds, h1, h2, h3, h4, _, _⟩ := FormatUint_spec f.value.int.toNat
      simp only [FormatInt, if_neg hneg, h1]
      cases ds with
      | nil => exact absurd rfl h2
      | cons b rest =>
        have hb := h3 b (List.mem_cons_self _ _)
        simp only [isDigit, decide_eq_true_eq] at hb
        have hb45 : ¬ b.val = 45 := by omega
        simp only [readInt, if_neg hb45, h4]
        omega
  · by_cases hneg : f.value.int < 0
    · obtain ⟨ds, h1, h2, h3, h4, h5, h6⟩ := FormatUint_spec (-f.value.int).toNat
      have hne : (-f.value.int).toNat ≠ 0 := by omega
      refine ⟨ds, by simp [FormatInt, hneg, h1], h2, h3, ?_, ?_, by rw [h4]; omega⟩
      · intro hh
        exact absurd hh (h6 hne)
      · constructor
        · intro h0; omega
        · intro hds
          rw [hds, hzero] at h4
          omega
    · obtain ⟨ds, h1, h2, h3, h4, h5, h6⟩ := FormatUint_spec f.value.int.toNat
      refine ⟨ds, by simp [FormatInt, hneg, h1], h2, h3, ?_, ?_, by rw [h4]; omega⟩
      · intro hh
        by_cases hu : f.value.int.toNat = 0
        · exact h5 hu
        · exact absurd hh (h6 hu)
      · constructor
        · intro h0
          exact h5 (by omega)
        · intro hds
          rw [hds, hzero] at h4
          omega

/-- C15 at {year: -1230 annotated decade}: reading back the emitted value gives -1230. -/
theorem integer_field_decimal_witness :
    (Value.ofInt (-1230)).kind = Kind.Int ∧
    readInt (FormatInt (Value.ofInt (-1230)).int) = (Value.ofInt (-1230)).int :=
  ⟨rfl, (integer_field_decimal ⟨lit "year", some (lit "decade"), Value.ofInt (-1230)⟩
    (lit "decade") [] rfl rfl).2.1⟩

/-- C19: for every record, the sequence of pairs `Stringify` emits with `SkipEmpty`
is exactly the sequence it emits without `SkipEmpty` from which the pairs of text
fields with value "" and of integer fields with value 0 have been deleted; the
remaining pairs keep their key, value and relative order, and none is added. -/
theorem SkipEmpty_only_removes (v : Record) (o0 o1 : List GoOption)
    (h0 : GoOption.SkipEmpty ∉ o0) (h1 : GoOption.SkipEmpty ∈ o1) :
    emitted v o1 = (emitted v o0).filter (fun x => !isEmptyField x.1) ∧
    Stringify v o1 = joinAmp ((emitted v o1).map (fun x => renderPair x.2)) ∧
    Stringify v o0 = joinAmp ((emitted v o0).map (fun x => renderPair x.2)) ∧
    (∀ x ∈ emitted v o0, x.1 ∈ v ∧ contributes o0 x.1 = some x.2) ∧
    List.Sublist (sortPairs (contributed v o1)) (sortPairs (contributed v o0)) := by
  have hem : emitted v o1 = (emitted v o0).filter (fun x => !isEmptyField x.1) := by
    unfold emitted
    rw [contributedBy_SkipEmpty v o0 o1 h0 h1]
    exact insertionSort_filter
      (fun a b : Field × (GoString × GoString) => strLe a.2.1 b.2.1 = true)
      (fun a b => strLe_total a.2.1 b.2.1) (fun _ _ _ hab hbc => strLe_trans hab hbc) _ _
  refine ⟨hem, Stringify_eq_emitted v o1, Stringify_eq_emitted v o0, ?_, ?_⟩
  · intro x hx
    have hx2 : x ∈ contributedBy v o0 := (List.perm_insertionSort _ _).mem_iff.mp hx
    exact (mem_contributedBy v o0 x).mp hx2
  · rw [← emitted_map_snd, ← emitted_map_snd, hem]
    exact (List.filter_sublist _).map Prod.snd

/-- C19 at {westeros: "" annotated world, zero: "0" annotated a, year: 0 annotated
decade}: only the text field "0" is still emitted with `SkipEmpty`. -/
theorem SkipEmpty_only_removes_witness :
    GoOption.SkipEmpty ∉ ([] : List GoOption) ∧ GoOption.SkipEmpty ∈ [GoOption.SkipEmpty] ∧
    emitted [⟨lit "westeros", some (lit "world"), Value.ofString []⟩,
      ⟨lit "zero", some (lit "a"), Value.ofString (lit "0")⟩,
      ⟨lit "year", some (lit "decade"), Value.ofInt 0⟩] [GoOption.SkipEmpty] =
    (emitted [⟨lit "westeros", some (lit "world"), Value.ofString []⟩,
      ⟨lit "zero", some (lit "a"), Value.ofString (lit "0")⟩,
      ⟨lit "year", some (lit "decade"), Value.ofInt 0⟩] []).filter
      (fun x => !isEmptyField x.1) :=
  ⟨by decide, by decide, (SkipEmpty_only_removes
    [⟨lit "westeros", some (lit "world"), Value.ofString []⟩,
      ⟨lit "zero", some (lit "a"), Value.ofString (lit "0")⟩,
      ⟨lit "year", some (lit "decade"), Value.ofInt 0⟩] [] [GoOption.SkipEmpty]
    (by decide) (by decide)).1⟩

/-- C16: for every record and option set, every pair emitted in the output of
`Stringify`, and of `StringifyE` when it returns no error, has as its key exactly the
annotation of the field of the record it comes from; so has every key held by the
accumulated query. The output renders each pair as escape(key) + "=" + escape(value). -/
theorem emitted_keys_are_annotations (v : Record) (o : List GoOption) :
    Stringify v o = joinAmp ((emitted v o).map (fun x => renderPair x.2)) ∧
    (∀ x ∈ emitted v o, x.1 ∈ v ∧ x.1.tag = some x.2.1) ∧
    (∀ k ∈ (stringifyLoop o v []).map Prod.fst, ∃ f ∈ v, f.tag = some k) ∧
    ((StringifyE v o).2 = none →
      (StringifyE v o).1 = joinAmp ((emitted v o).map (fun x => renderPair x.2))) := by
  refine ⟨Stringify_eq_emitted v o, ?_, ?_, ?_⟩
  · intro x hx
    have hx2 : x ∈ contributedBy v o := (List.perm_insertionSort _ _).mem_iff.mp hx
    obtain ⟨h1, h2⟩ := (mem_contributedBy v o x).mp hx2
    exact ⟨h1, contributes_some_tag o x.1 x.2 h2⟩
  · intro k hk
    rw [stringifyLoop_eq_addAll, mem_keys_addAll] at hk
    rcases hk with hk | hk
    · simp at hk
    · obtain ⟨p, hp, hpk⟩ := List.mem_map.mp hk
      obtain ⟨f, hf, hc⟩ := List.mem_filterMap.mp hp
      exact ⟨f, hf, by rw [← hpk]; exact contributes_some_tag o f p hc⟩
  · intro hok
    unfold StringifyE at hok ⊢
    rw [stringifyELoop_ok o v [] hok]
    exact Stringify_eq_emitted v o

/-- C16 at {westeros: "hello" annotated "a b"}, where `StringifyE` succeeds. -/
theorem emitted_keys_are_annotations_witness :
    (StringifyE [⟨lit "westeros", some (lit "a b"), Value.ofString (lit "hello")⟩] []).2 = none ∧
    (StringifyE [⟨lit "westeros", some (lit "a b"), Value.ofString (lit "hello")⟩] []).1 =
      joinAmp ((emitted [⟨lit "westeros", some (lit "a b"), Value.ofString (lit "hello")⟩]
        []).map (fun x => renderPair x.2)) :=
  ⟨by decide, (emitted_keys_are_annotations
    [⟨lit "westeros", some (lit "a b"), Value.ofString (lit "hello")⟩] []).2.2.2 (by decide)⟩

/-- C17: for every record and option set, the number of key/value pairs in the
accumulated query equals the number of fields that are annotated and convert
successfully, hence is at most the number of fields; the values kept under a key are
those of the contributing fields with that annotation, in declared order, and they are
emitted in that order: two text fields "x", "y" annotated k yield "k=x&k=y". -/
theorem each_field_contributes_one_pair (v : Record) (o : List GoOption) :
    pairCount (stringifyLoop o v []) =
      (v.filter (fun f => f.tag.isSome && (reflectToString f.value o).2.isNone)).length ∧
    pairCount (stringifyLoop o v []) ≤ v.length ∧
    (∀ k : GoString, (stringifyLoop o v []).get k =
      ((contributed v o).filter (fun p => decide (p.1 = k))).map Prod.snd) ∧
    (∀ k : GoString, (sortPairs (contributed v o)).filter (fun p => decide (p.1 = k)) =
      (contributed v o).filter (fun p => decide (p.1 = k))) ∧
    Stringify v o = joinAmp ((sortPairs (contributed v o)).map renderPair) ∧
    Stringify [⟨lit "a", some (lit "k"), Value.ofString (lit "x")⟩,
      ⟨lit "b", some (lit "k"), Value.ofString (lit "y")⟩] [] = lit "k=x&k=y" ∧
    Stringify [⟨lit "a", some (lit "k"), Value.ofString (lit "y")⟩,
      ⟨lit "b", some (lit "k"), Value.ofString (lit "x")⟩] [] = lit "k=y&k=x" := by
  have hcount : pairCount (stringifyLoop o v []) = (contributed v o).length := by
    rw [stringifyLoop_eq_addAll, pairCount_addAll]
    simp [pairCount]
  refine ⟨?_, ?_, ?_, ?_, Stringify_eq_reference v o, by decide, by decide⟩
  · rw [hcount, length_contributed]
  · rw [hcount, length_contributed]
    exact List.length_filter_le _ _
  · intro k
    rw [stringifyLoop_eq_addAll, get_addAll]
    simp [Values.get]
  · intro k
    exact filter_sortPairs _ k

/-- C20: for every record and option set, `Stringify` returns the empty string if and
only if no field contributes a pair, a field contributing none exactly when it is
unannotated, of unsupported kind, or suppressed by `SkipEmpty`; whenever some field
contributes, the output contains "=", and a single pair with empty key and empty value
yields "=". -/
theorem Stringify_empty_iff (v : Record) (o : List GoOption) :
    (Stringify v o = [] ↔ ∀ f ∈ v, contributes o f = none) ∧
    (∀ f : Field, contributes o f = none ↔
      (f.tag = none ∨ supportedKind f.value.kind = false ∨
        (GoOption.SkipEmpty ∈ o ∧ isEmptyField f = true))) ∧
    ((∃ f ∈ v, contributes o f ≠ none) → (61 : Fin 256) ∈ Stringify v o) ∧
    Stringify [⟨lit "westeros", some [], Value.ofString []⟩] [] = lit "=" := by
  have hmem : contributed v o ≠ [] → (61 : Fin 256) ∈ Stringify v o := by
    intro h
    rw [Stringify_eq_reference]
    exact mem_referenceEncode _ h
  refine ⟨?_, fun f => contributes_eq_none_iff o f, ?_, by decide⟩
  · rw [← contributed_eq_nil_iff]
    constructor
    · intro hs
      by_contra hne
      have h61 := hmem hne
      rw [hs] at h61
      simp at h61
    · intro hnil
      rw [Stringify_eq_reference, hnil]
      rfl
  · rintro ⟨f, hf, hc⟩
    apply hmem
    intro hnil
    exact hc ((contributed_eq_nil_iff v o).mp hnil f hf)

/-- C20 at {westeros: "" annotated with the empty key}: the output contains "=". -/
theorem Stringify_empty_iff_witness :
    (∃ f ∈ ([⟨lit "westeros", some [], Value.ofString []⟩] : Record),
      contributes [] f ≠ none) ∧
    (61 : Fin 256) ∈ Stringify [⟨lit "westeros", some [], Value.ofString []⟩] [] :=
  ⟨by decide, (Stringify_empty_iff [⟨lit "westeros", some [], Value.ofString []⟩] []).2.2.1
    (by decide)⟩

end Query
